import Mathlib

/-!
Verification of the funds-data reconciliation-and-analytics engine.

The development shallowly embeds the two report engines of the repository:

* `PriceReconciler` (src/elt/reports/price_reconciler.py): the as-of
  price-matching join between fund holdings and reference quotes, and
* `PerformanceAnalyzer` (src/elt/reports/performance_analyzer.py): the
  monthly per-fund aggregation, lagged market-value, return and
  top-performer computations.

Tables are embedded as lists of records, pandas timestamps and month
periods as `Option Int` / `Int`, and decimal columns as `ℚ`.  Nullable
cells are `Option` values (pandas `NaN`/`NaT` is `none`).  Float
division by zero is modelled by the four-valued `RetVal` type
(finite / +inf / -inf / NaN), matching numpy semantics.  An operation
that raises in the source (`pd.concat` of an empty list) returns `none`.
-/

/-! ### Generic list machinery

`sortBy` is a stable insertion sort with a boolean comparator; it models
the (stable, for multi-key) `DataFrame.sort_values`.  `dedupOn f` keeps
the first row per key `f`, modelling `drop_duplicates(subset=[key])`
(and, with `f = id`, `Series.unique()`).
-/

def insertS (le : α → α → Bool) (x : α) : List α → List α
  | [] => [x]
  | y :: ys => if le x y then x :: y :: ys else y :: insertS le x ys

def sortBy (le : α → α → Bool) : List α → List α
  | [] => []
  | x :: xs => insertS le x (sortBy le xs)

theorem insertS_perm (le : α → α → Bool) (x : α) (l : List α) :
    (insertS le x l).Perm (x :: l) := by
  induction l with
  | nil => simp [insertS]
  | cons y ys ih =>
    by_cases h : le x y = true
    · simp [insertS, h]
    · simp only [insertS, h, if_neg]
      exact (List.Perm.cons y ih).trans (List.Perm.swap x y ys)

theorem sortBy_perm (le : α → α → Bool) (l : List α) : (sortBy le l).Perm l := by
  induction l with
  | nil => simp [sortBy]
  | cons x xs ih =>
    exact (insertS_perm le x (sortBy le xs)).trans (List.Perm.cons x ih)

theorem mem_sortBy {le : α → α → Bool} {l : List α} {a : α} :
    a ∈ sortBy le l ↔ a ∈ l :=
  (sortBy_perm le l).mem_iff

theorem pairwise_insertS (le : α → α → Bool)
    (total : ∀ a b, le a b = true ∨ le b a = true)
    (trans : ∀ a b c, le a b = true → le b c = true → le a c = true)
    (x : α) (l : List α) (h : l.Pairwise (fun a b => le a b = true)) :
    (insertS le x l).Pairwise (fun a b => le a b = true) := by
  induction l with
  | nil => simp [insertS]
  | cons y ys ih =>
    rcases List.pairwise_cons.mp h with ⟨hy, hys⟩
    by_cases hxy : le x y = true
    · simp only [insertS, hxy, if_pos]
      refine List.pairwise_cons.mpr ⟨?_, h⟩
      intro z hz
      rcases List.mem_cons.mp hz with rfl | hz
      · exact hxy
      · exact trans x y z hxy (hy z hz)
    · simp only [insertS, hxy, if_neg]
      refine List.pairwise_cons.mpr ⟨?_, ih hys⟩
      intro z hz
      have hz' := (insertS_perm le x ys).mem_iff.mp hz
      rcases List.mem_cons.mp hz' with rfl | hz'
      · rcases total z y with h1 | h1
        · exact absurd h1 hxy
        · exact h1
      · exact hy z hz'

theorem pairwise_sortBy (le : α → α → Bool)
    (total : ∀ a b, le a b = true ∨ le b a = true)
    (trans : ∀ a b c, le a b = true → le b c = true → le a c = true)
    (l : List α) : (sortBy le l).Pairwise (fun a b => le a b = true) := by
  induction l with
  | nil => simp [sortBy]
  | cons x xs ih => exact pairwise_insertS le total trans x _ ih

def dedupOnAux (f : α → β) [DecidableEq β] : List β → List α → List α
  | _, [] => []
  | seen, x :: xs =>
    if f x ∈ seen then dedupOnAux f seen xs
    else x :: dedupOnAux f (f x :: seen) xs

def dedupOn (f : α → β) [DecidableEq β] (l : List α) : List α :=
  dedupOnAux f [] l

/-- Every element kept by `dedupOnAux` comes from the input, has a key not
yet seen, and (given a reflexive pairwise relation on the input) is related
to every input element sharing its key — i.e. it is the first such row. -/
theorem dedupOnAux_spec (f : α → β) [DecidableEq β]
    {R : α → α → Prop} (hrefl : ∀ a, R a a) :
    ∀ (seen : List β) (l : List α), l.Pairwise R →
      ∀ y ∈ dedupOnAux f seen l,
        f y ∉ seen ∧ y ∈ l ∧ ∀ x ∈ l, f x = f y → R y x := by
  intro seen l
  induction l generalizing seen with
  | nil => intro _ y hy; simp [dedupOnAux] at hy
  | cons x0 xs ih =>
    intro hp y hy
    rcases List.pairwise_cons.mp hp with ⟨hx0, hxs⟩
    by_cases hseen : f x0 ∈ seen
    · simp only [dedupOnAux, hseen, if_pos] at hy
      rcases ih seen hxs y hy with ⟨h1, h2, h3⟩
      refine ⟨h1, List.mem_cons_of_mem _ h2, ?_⟩
      intro x hx hfx
      rcases List.mem_cons.mp hx with rfl | hx
      · exact absurd (hfx ▸ hseen) h1
      · exact h3 x hx hfx
    · simp only [dedupOnAux, hseen, if_neg] at hy
      rcases List.mem_cons.mp hy with rfl | hy
      · refine ⟨hseen, List.mem_cons_self _ _, ?_⟩
        intro x hx hfx
        rcases List.mem_cons.mp hx with rfl | hx
        · exact hrefl _
        · exact hx0 x hx
      · rcases ih (f x0 :: seen) hxs y hy with ⟨h1, h2, h3⟩
        have h1' : f y ∉ seen := fun hc => h1 (List.mem_cons_of_mem _ hc)
        have h1x0 : f y ≠ f x0 := fun hc => h1 (hc ▸ List.mem_cons_self _ _)
        refine ⟨h1', List.mem_cons_of_mem _ h2, ?_⟩
        intro x hx hfx
        rcases List.mem_cons.mp hx with rfl | hx
        · exact absurd hfx.symm h1x0
        · exact h3 x hx hfx

theorem dedupOn_subset (f : α → β) [DecidableEq β] {l : List α} {y : α}
    (hy : y ∈ dedupOn f l) : y ∈ l :=
  (dedupOnAux_spec f (R := fun _ _ => True) (fun _ => trivial) [] l
    (List.pairwise_iff_forall_sublist.mpr (fun _ => trivial)) y hy).2.1

/-- Any key present in the input is present among the kept rows. -/
theorem dedupOnAux_cover (f : α → β) [DecidableEq β] :
    ∀ (seen : List β) (l : List α) (x : α), x ∈ l → f x ∉ seen →
      ∃ y ∈ dedupOnAux f seen l, f y = f x := by
  intro seen l
  induction l generalizing seen with
  | nil => intro x hx; simp at hx
  | cons x0 xs ih =>
    intro x hx hxs
    by_cases hseen : f x0 ∈ seen
    · simp only [dedupOnAux, hseen, if_pos]
      rcases List.mem_cons.mp hx with rfl | hx
      · exact absurd hseen hxs
      · exact ih seen x hx hxs
    · simp only [dedupOnAux, hseen, if_neg]
      by_cases hkey : f x = f x0
      · exact ⟨x0, List.mem_cons_self _ _, hkey.symm⟩
      · rcases List.mem_cons.mp hx with rfl | hx
        · exact absurd rfl hkey
        · have hnot : f x ∉ f x0 :: seen := by
            intro hc
            rcases List.mem_cons.mp hc with hc | hc
            · exact hkey hc
            · exact hxs hc
          rcases ih (f x0 :: seen) x hx hnot with ⟨y, hy, hfy⟩
          exact ⟨y, List.mem_cons_of_mem _ hy, hfy⟩

theorem dedupOn_cover (f : α → β) [DecidableEq β] {l : List α} {x : α}
    (hx : x ∈ l) : ∃ y ∈ dedupOn f l, f y = f x :=
  dedupOnAux_cover f [] l x hx (by simp)

theorem mem_dedupOn_id [DecidableEq α] {l : List α} {x : α} :
    x ∈ dedupOn id l ↔ x ∈ l := by
  constructor
  · exact dedupOn_subset id
  · intro hx
    rcases dedupOn_cover id hx with ⟨y, hy, hfy⟩
    exact (show y = x from hfy) ▸ hy

/-- The kept rows have pairwise distinct keys. -/
theorem dedupOnAux_keys_pairwise (f : α → β) [DecidableEq β] :
    ∀ (seen : List β) (l : List α),
      (dedupOnAux f seen l).Pairwise (fun a b => f a ≠ f b) := by
  intro seen l
  induction l generalizing seen with
  | nil => simp [dedupOnAux]
  | cons x0 xs ih =>
    by_cases hseen : f x0 ∈ seen
    · simpa only [dedupOnAux, hseen, if_pos] using ih seen
    · simp only [dedupOnAux, hseen, if_neg]
      refine List.pairwise_cons.mpr ⟨?_, ih (f x0 :: seen)⟩
      intro y hy
      have := dedupOnAux_spec f (R := fun _ _ => True) (fun _ => trivial)
        (f x0 :: seen) xs
        (List.pairwise_iff_forall_sublist.mpr (fun _ => trivial)) y hy
      intro hc
      exact this.1 (hc ▸ List.mem_cons_self _ _)

theorem dedupOn_keys_pairwise (f : α → β) [DecidableEq β] (l : List α) :
    (dedupOn f l).Pairwise (fun a b => f a ≠ f b) :=
  dedupOnAux_keys_pairwise f [] l

/-- The first kept row of a key is, in a pairwise-`R` list, `R`-related to
every row sharing its key. -/
theorem dedupOn_first (f : α → β) [DecidableEq β]
    {R : α → α → Prop} (hrefl : ∀ a, R a a) {l : List α}
    (hp : l.Pairwise R) {y : α} (hy : y ∈ dedupOn f l) :
    ∀ x ∈ l, f x = f y → R y x :=
  (dedupOnAux_spec f hrefl [] l hp y hy).2.2

/-- In a list whose keys are pairwise distinct, filtering on the key of a
member returns exactly that member. -/
theorem filter_eq_single_of_keys_pairwise (f : α → β) [DecidableEq β]
    {l : List α} (hp : l.Pairwise (fun a b => f a ≠ f b)) {x : α}
    (hx : x ∈ l) : l.filter (fun y => f y = f x) = [x] := by
  induction l with
  | nil => simp at hx
  | cons y ys ih =>
    rcases List.pairwise_cons.mp hp with ⟨hy, hys⟩
    rcases List.mem_cons.mp hx with rfl | hx
    · have hnil : ys.filter (fun z => decide (f z = f x)) = [] := by
        refine List.filter_eq_nil_iff.mpr ?_
        intro z hz
        simp only [decide_eq_true_eq]
        exact fun hc => (hy z hz) hc.symm
      rw [List.filter_cons_of_pos (by simp), hnil]
    · rw [List.filter_cons_of_neg (by simp only [decide_eq_true_eq]; exact hy x hx)]
      exact ih hys hx

/-! ### A computable linear preorder on strings

Pandas compares string keys with the usual lexicographic order; we embed
it as a boolean comparator on the character lists so that it evaluates
inside the kernel. -/

def lexLE : List Char → List Char → Bool
  | [], _ => true
  | _ :: _, [] => false
  | x :: xs, y :: ys =>
    if x.toNat < y.toNat then true
    else if y.toNat < x.toNat then false
    else lexLE xs ys

def strLE (a b : String) : Bool := lexLE a.data b.data

theorem lexLE_total : ∀ a b : List Char, lexLE a b = true ∨ lexLE b a = true
  | [], _ => Or.inl rfl
  | _ :: _, [] => Or.inr rfl
  | x :: xs, y :: ys => by
    simp only [lexLE]
    rcases Nat.lt_trichotomy x.toNat y.toNat with h | h | h
    · left; simp [h]
    · have h1 : ¬ x.toNat < y.toNat := by omega
      have h2 : ¬ y.toNat < x.toNat := by omega
      simpa [h1, h2] using lexLE_total xs ys
    · right; simp [h]

theorem lexLE_trans : ∀ a b c : List Char,
    lexLE a b = true → lexLE b c = true → lexLE a c = true
  | [], _, _, _, _ => rfl
  | _ :: _, [], _, h, _ => by simp [lexLE] at h
  | _ :: _, _ :: _, [], _, h => by simp [lexLE] at h
  | x :: xs, y :: ys, z :: zs, h1, h2 => by
    simp only [lexLE] at h1 h2 ⊢
    rcases Nat.lt_trichotomy x.toNat y.toNat with hxy | hxy | hxy
    · rcases Nat.lt_trichotomy y.toNat z.toNat with hyz | hyz | hyz
      · simp [show x.toNat < z.toNat by omega]
      · simp [show x.toNat < z.toNat by omega]
      · rw [if_neg (by omega), if_pos (by omega)] at h2
        exact absurd h2 (by simp)
    · rw [if_neg (by omega), if_neg (by omega)] at h1
      rcases Nat.lt_trichotomy y.toNat z.toNat with hyz | hyz | hyz
      · simp [show x.toNat < z.toNat by omega]
      · rw [if_neg (by omega), if_neg (by omega)] at h2
        rw [if_neg (by omega), if_neg (by omega)]
        exact lexLE_trans xs ys zs h1 h2
      · rw [if_neg (by omega), if_pos (by omega)] at h2
        exact absurd h2 (by simp)
    · rw [if_neg (by omega), if_pos (by omega)] at h1
      exact absurd h1 (by simp)

theorem strLE_total (a b : String) : strLE a b = true ∨ strLE b a = true :=
  lexLE_total a.data b.data

theorem strLE_trans {a b c : String} (h1 : strLE a b = true)
    (h2 : strLE b c = true) : strLE a c = true :=
  lexLE_trans a.data b.data c.data h1 h2

/-! ### Rounding

`Series.round(n)` rounds half to even (numpy).  `x.num.fdiv x.den` is the
floor of a rational, written with `Int.fdiv` so that it evaluates in the
kernel. -/

def roundHalfEven (x : ℚ) : ℤ :=
  let f : ℤ := x.num.fdiv (x.den : ℤ)
  let r : ℚ := x - (f : ℚ)
  if r < 1/2 then f
  else if (1 : ℚ)/2 < r then f + 1
  else if f % 2 = 0 then f else f + 1

def roundTo (n : ℕ) (x : ℚ) : ℚ := (roundHalfEven (x * 10 ^ n) : ℚ) / 10 ^ n

def round2 (x : ℚ) : ℚ := roundTo 2 x

def round4 (x : ℚ) : ℚ := roundTo 4 x

/-! ### Data model of the price reconciliation engine

`Holding` is one row of the `fund_positions` table as `PriceReconciler`
sees it (src/constants/constants.py, `FundPositionsColumnNames`).
`Quote` is one row of a reference-price table (`equity_prices` or
`bond_prices`); `key` is the column named by the `SecurityIdentifier`
passed to the merge (SYMBOL for equities, ISIN for bonds).  `ReconRow`
is a merged row: the holding's columns plus `PRICE_ref` and
`price_diff`, both `NaN` (`none`) when there is no match. -/

structure Holding where
  fund_name : String
  datetime : Option Int
  financial_type : String
  symbol : Option String
  isin : Option String
  price : ℚ
  market_value : ℚ
  realized_pl : ℚ
deriving DecidableEq

structure Quote where
  datetime : Option Int
  key : Option String
  price : ℚ
deriving DecidableEq

structure ReconRow where
  pos : Holding
  price_ref : Option ℚ
  price_diff : Option ℚ
deriving DecidableEq

/-- `AssetType.EQUITY.value` in src/constants/constants.py. -/
def AssetType_EQUITY : String := "Equities"

/-- `AssetType.BONDS.value` in src/constants/constants.py. -/
def AssetType_BONDS : String := "Government Bond"

/-! ### PriceReconciler (src/elt/reports/price_reconciler.py) -/

/-- The ISIN fix-up performed at the end of
`PriceReconciler.load_and_prepare_data` (lines 74-81): for every row
whose `FINANCIAL TYPE` is `Government Bond`, the `ISIN` column is
overwritten with the row's `SYMBOL`. -/
def fix_bond_isin (fund_positions : List Holding) : List Holding :=
  fund_positions.map fun h =>
    if h.financial_type = AssetType_BONDS then { h with isin := h.symbol } else h

/-- `df[date_col] <= date_value` for one cell: `NaT` compares false. -/
def dateLE (d : Option Int) (date_value : Int) : Bool :=
  match d with
  | none => false
  | some x => decide (x ≤ date_value)

/-- Ascending comparison of two key cells; a null key (`NaN`) sorts last. -/
def optStrLE : Option String → Option String → Bool
  | none, none => true
  | none, some _ => false
  | some _, none => true
  | some a, some b => strLE a b

/-- Descending comparison of two date cells (`ascending=[.., False]`);
a null date sorts last. -/
def dateDescLE : Option Int → Option Int → Bool
  | none, none => true
  | none, some _ => false
  | some _, none => true
  | some a, some b => decide (b ≤ a)

/-- The comparator of
`sort_values(by=[key_col, date_col], ascending=[True, False])`. -/
def quoteLE (a b : Quote) : Bool :=
  if a.key = b.key then dateDescLE a.datetime b.datetime else optStrLE a.key b.key

/-- `PriceReconciler.get_latest_price` (lines 164-183): filter the quotes
to dates at or before `date_value`, sort by (key asc, date desc), and
keep the first row per key. -/
def get_latest_price (df : List Quote) (date_value : Int) : List Quote :=
  dedupOn (fun q => q.key)
    (sortBy quoteLE (df.filter (fun q => dateLE q.datetime date_value)))

/-- `PriceReconciler._calculate_price_diff` (lines 156-162):
`price_diff = (PRICE - PRICE_ref).round(2)`, with `NaN` propagating. -/
def calculate_price_diff (r : ReconRow) : ReconRow :=
  { r with price_diff := r.price_ref.map (fun p => round2 (r.pos.price - p)) }

/-- `PriceReconciler._reconcile_asset_type` (lines 136-154): for each
distinct non-null date of the holdings subset, left-merge the holdings of
that date with the latest quotes per key, then add the price diff; the
per-date frames are concatenated.  `pd.concat` of an empty list raises
`ValueError`, modelled as `none`. -/
def reconcile_asset_type (fund_df : List Holding) (reference_df : List Quote)
    (key : Holding → Option String) : Option (List ReconRow) :=
  let dts := dedupOn id (fund_df.filterMap (fun h => h.datetime))
  if dts.isEmpty then none
  else some (dts.flatMap fun dt =>
    let subset := fund_df.filter (fun h => h.datetime = some dt)
    let latest_prices := get_latest_price reference_df dt
    let merged := subset.map fun h =>
      { pos := h
        price_ref := (latest_prices.find? (fun q => q.key = key h)).map (fun q => q.price)
        price_diff := none : ReconRow }
    merged.map calculate_price_diff)

/-- `PriceReconciler._filter_by_asset_type` (lines 130-134). -/
def filter_by_asset_type (fund_positions : List Holding) (asset_type : String) :
    List Holding :=
  fund_positions.filter (fun h => h.financial_type = asset_type)

/-- `PriceReconciler.reconcile_prices` (lines 109-128): reconcile the
equity subset on SYMBOL against `equity_prices`, the bond subset on ISIN
against `bond_prices`, and concatenate, equities first.  An exception in
either sub-reconciliation propagates (`none`). -/
def reconcile_prices (fund_positions : List Holding)
    (equity_prices bond_prices : List Quote) : Option (List ReconRow) :=
  match reconcile_asset_type (filter_by_asset_type fund_positions AssetType_EQUITY)
          equity_prices (fun h => h.symbol),
        reconcile_asset_type (filter_by_asset_type fund_positions AssetType_BONDS)
          bond_prices (fun h => h.isin) with
  | some equity_report, some bonds_report => some (equity_report ++ bonds_report)
  | _, _ => none

/-! ### Data model of the performance engine

`PHolding` is a `fund_positions` row as `PerformanceAnalyzer` uses it:
`FUND NAME`, the `month` period added by
`DateUtils.parse_datetime_column_and_add_month` (a required, comparable
period value, embedded as `Int`), `MARKET VALUE` and `REALISED P/L`.
`MonthlyAgg` is a row of the grouped frame (`MV_end`, `realized_pnl`),
`MvRow` a row after `MV_start` has been added and the `NaN` rows
dropped, and `RetRow` a row of the final monthly-returns table.

The result of the float division `(MV_end - MV_start + realized_pnl) /
MV_start` is a `RetVal`: finite, `+inf`, `-inf`, or `NaN` — the last
three arise exactly when `MV_start = 0`, per IEEE-754 semantics. -/

structure PHolding where
  fund_name : String
  month : Int
  market_value : ℚ
  realized_pl : ℚ
deriving DecidableEq

structure MonthlyAgg where
  fund_name : String
  month : Int
  MV_end : ℚ
  realized_pnl : ℚ
deriving DecidableEq

structure MvRow where
  fund_name : String
  month : Int
  MV_end : ℚ
  realized_pnl : ℚ
  MV_start : ℚ
deriving DecidableEq

inductive RetVal where
  | nan : RetVal
  | ninf : RetVal
  | fin : ℚ → RetVal
  | pinf : RetVal
deriving DecidableEq

structure RetRow where
  fund_name : String
  month : Int
  MV_end : ℚ
  realized_pnl : ℚ
  MV_start : ℚ
  rate_of_return : RetVal
deriving DecidableEq

/-- IEEE-754 division: a zero divisor yields `+inf`, `-inf` or `NaN`
according to the sign of the dividend. -/
def rdiv (num den : ℚ) : RetVal :=
  if den = 0 then
    if 0 < num then RetVal.pinf else if num < 0 then RetVal.ninf else RetVal.nan
  else RetVal.fin (num / den)

/-- `Series.round(4)` on a float column: finite values are rounded,
`inf`/`NaN` pass through. -/
def roundRet : RetVal → RetVal
  | RetVal.fin q => RetVal.fin (round4 q)
  | v => v

/-- Whether a float cell holds an ordinary finite number. -/
def RetVal.isFiniteVal : RetVal → Bool
  | RetVal.fin _ => true
  | _ => false

/-! ### PerformanceAnalyzer (src/elt/reports/performance_analyzer.py) -/

/-- The comparator of `groupby([FUND NAME, month])` key ordering and of
`sort_values(by=[FUND NAME, month])`. -/
def pairLE (a b : String × Int) : Bool :=
  if a.1 = b.1 then decide (a.2 ≤ b.2) else strLE a.1 b.1

/-- One output row of the `groupby([FUND NAME, month]).agg(...)` of
`PerformanceAnalyzer._aggregate_monthly_data`: the key's group is
summed (`MARKET VALUE` into `MV_end`, `REALISED P/L` into
`realized_pnl`). -/
def aggRow (fund_positions : List PHolding) (k : String × Int) : MonthlyAgg :=
  let grp := fund_positions.filter
    (fun h => decide (h.fund_name = k.1 ∧ h.month = k.2))
  { fund_name := k.1, month := k.2
    MV_end := (grp.map (fun h => h.market_value)).sum
    realized_pnl := (grp.map (fun h => h.realized_pl)).sum }

/-- `PerformanceAnalyzer._aggregate_monthly_data` (lines 99-112):
group by `(FUND NAME, month)` — pandas emits one row per distinct key,
sorted ascending — summing `MARKET VALUE` into `MV_end` and
`REALISED P/L` into `realized_pnl`. -/
def aggregate_monthly_data (fund_positions : List PHolding) : List MonthlyAgg :=
  let keys := sortBy pairLE
    (dedupOn id (fund_positions.map (fun h => (h.fund_name, h.month))))
  keys.map (aggRow fund_positions)

/-- The comparator of `sort_values(by=[FUND NAME, month])` on the
aggregated frame. -/
def aggLE (a b : MonthlyAgg) : Bool :=
  if a.fund_name = b.fund_name then decide (a.month ≤ b.month)
  else strLE a.fund_name b.fund_name

/-- `groupby(FUND NAME)["MV_end"].shift(1)` walked left to right: each
row is paired with the `MV_end` of the nearest earlier row of the same
fund (`none` for the first row of a fund).  `pre` is the already-walked
left part of the frame. -/
def shiftMV : List MonthlyAgg → List MonthlyAgg → List (MonthlyAgg × Option ℚ)
  | _, [] => []
  | pre, r :: rs =>
    (r, ((pre.filter (fun x => x.fund_name = r.fund_name)).getLast?).map
          (fun x => x.MV_end))
      :: shiftMV (pre ++ [r]) rs

/-- `PerformanceAnalyzer._calculate_mv_start` (lines 134-145): sort by
(fund, month), set `MV_start` to the previous same-fund `MV_end`
(`shift(1)` within each fund), and `dropna(subset=[MV_start])`. -/
def calculate_mv_start (df : List MonthlyAgg) : List MvRow :=
  (shiftMV [] (sortBy aggLE df)).filterMap fun p =>
    p.2.map fun v =>
      { fund_name := p.1.fund_name, month := p.1.month, MV_end := p.1.MV_end
        realized_pnl := p.1.realized_pnl, MV_start := v }

/-- `PerformanceAnalyzer._compute_returns` (lines 147-157):
`rate_of_return = ((MV_end - MV_start + realized_pnl) / MV_start).round(4)`. -/
def compute_returns (df : List MvRow) : List RetRow :=
  df.map fun r =>
    { fund_name := r.fund_name, month := r.month, MV_end := r.MV_end
      realized_pnl := r.realized_pnl, MV_start := r.MV_start
      rate_of_return :=
        roundRet (rdiv (r.MV_end - r.MV_start + r.realized_pnl) r.MV_start) }

/-- `PerformanceAnalyzer.calculate_monthly_returns` (lines 76-97). -/
def calculate_monthly_returns (fund_positions : List PHolding) : List RetRow :=
  compute_returns (calculate_mv_start (aggregate_monthly_data fund_positions))

/-- The comparator of `sort_values(rate_of_return, ascending=False)`:
`a` sorts at or before `b` when its return is at least `b`'s, with
`-inf` below all finite values, `+inf` above, and `NaN` placed last
(`na_position="last"`). -/
def retGeB : RetVal → RetVal → Bool
  | _, RetVal.nan => true
  | RetVal.nan, _ => false
  | RetVal.pinf, _ => true
  | _, RetVal.pinf => false
  | _, RetVal.ninf => true
  | RetVal.ninf, _ => false
  | RetVal.fin a, RetVal.fin b => decide (b ≤ a)

def returnsDescLE (a b : RetRow) : Bool := retGeB a.rate_of_return b.rate_of_return

def monthRowLE (a b : RetRow) : Bool := decide (a.month ≤ b.month)

/-- `PerformanceAnalyzer.get_top_performing_funds` (lines 114-132): sort
by return descending, keep the first row of each month group
(`groupby(month).head(1)` keeps first rows in the current order), then
sort the winners by month ascending. -/
def get_top_performing_funds (returns_df : List RetRow) : List RetRow :=
  let top_performers := dedupOn (fun r => r.month) (sortBy returnsDescLE returns_df)
  sortBy monthRowLE top_performers

/-- The distinct months a fund is observed in, used to state the lag
properties: the distinct `month` values among the rows of `fund_positions`
whose `FUND NAME` equals `f`. -/
def monthsOf (fund_positions : List PHolding) (f : String) : List Int :=
  dedupOn id ((fund_positions.filter (fun h => h.fund_name = f)).map
    (fun h => h.month))

/-! ### Comparator properties -/

theorem lexLE_antisymm : ∀ a b : List Char,
    lexLE a b = true → lexLE b a = true → a = b
  | [], [], _, _ => rfl
  | [], _ :: _, _, h2 => by simp [lexLE] at h2
  | _ :: _, [], h1, _ => by simp [lexLE] at h1
  | x :: xs, y :: ys, h1, h2 => by
    simp only [lexLE] at h1 h2
    rcases Nat.lt_trichotomy x.toNat y.toNat with hxy | hxy | hxy
    · rw [if_neg (by omega), if_pos (by omega)] at h2
      exact absurd h2 (by simp)
    · rw [if_neg (by omega), if_neg (by omega)] at h1
      rw [if_neg (by omega), if_neg (by omega)] at h2
      have hval : x.val.toNat = y.val.toNat := hxy
      have hchar : x = y := Char.ext (by
        have h32 := UInt32.toNat.inj hval
        exact h32)
      rw [hchar, lexLE_antisymm xs ys h1 h2]
    · rw [if_neg (by omega), if_pos (by omega)] at h1
      exact absurd h1 (by simp)

theorem strLE_antisymm {a b : String} (h1 : strLE a b = true)
    (h2 : strLE b a = true) : a = b := by
  have hdata := lexLE_antisymm a.data b.data h1 h2
  cases a
  cases b
  exact congrArg String.mk hdata

theorem optStrLE_total (a b : Option String) :
    optStrLE a b = true ∨ optStrLE b a = true := by
  cases a <;> cases b <;> simp [optStrLE]
  exact strLE_total _ _

theorem optStrLE_antisymm : ∀ {a b : Option String},
    optStrLE a b = true → optStrLE b a = true → a = b := by
  intro a b h1 h2
  cases a <;> cases b <;> simp_all [optStrLE]
  exact strLE_antisymm h1 h2

theorem optStrLE_trans : ∀ {a b c : Option String},
    optStrLE a b = true → optStrLE b c = true → optStrLE a c = true := by
  intro a b c h1 h2
  cases a <;> cases b <;> cases c <;> simp_all [optStrLE]
  exact strLE_trans h1 h2

theorem dateDescLE_refl (d : Option Int) : dateDescLE d d = true := by
  cases d <;> simp [dateDescLE]

theorem dateDescLE_total (a b : Option Int) :
    dateDescLE a b = true ∨ dateDescLE b a = true := by
  cases a <;> cases b <;> simp [dateDescLE] <;> omega

theorem dateDescLE_trans : ∀ {a b c : Option Int},
    dateDescLE a b = true → dateDescLE b c = true → dateDescLE a c = true := by
  intro a b c h1 h2
  cases a <;> cases b <;> cases c <;> simp_all [dateDescLE] <;> omega

theorem quoteLE_refl (a : Quote) : quoteLE a a = true := by
  simp [quoteLE, dateDescLE_refl]

theorem quoteLE_total (a b : Quote) : quoteLE a b = true ∨ quoteLE b a = true := by
  unfold quoteLE
  by_cases h : a.key = b.key
  · simp only [h, if_pos]
    exact dateDescLE_total _ _
  · rw [if_neg h, if_neg (fun hc => h hc.symm)]
    exact optStrLE_total _ _

theorem quoteLE_trans (a b c : Quote) (h1 : quoteLE a b = true)
    (h2 : quoteLE b c = true) : quoteLE a c = true := by
  unfold quoteLE at h1 h2 ⊢
  by_cases hab : a.key = b.key <;> by_cases hbc : b.key = c.key
  · rw [if_pos hab] at h1
    rw [if_pos hbc] at h2
    rw [if_pos (hab.trans hbc)]
    exact dateDescLE_trans h1 h2
  · rw [if_pos hab] at h1
    rw [if_neg hbc] at h2
    rw [if_neg (fun hc => hbc (hab ▸ hc)), hab]
    exact h2
  · rw [if_neg hab] at h1
    rw [if_pos hbc] at h2
    rw [if_neg (fun hc => hab (hbc ▸ hc)), ← hbc]
    exact h1
  · rw [if_neg hab] at h1
    rw [if_neg hbc] at h2
    by_cases hac : a.key = c.key
    · exact absurd (optStrLE_antisymm h1 (hac ▸ h2)) hab
    · rw [if_neg hac]
      exact optStrLE_trans h1 h2

theorem strLE_refl (a : String) : strLE a a = true := by
  rcases strLE_total a a with h | h <;> exact h

theorem pairLE_refl (a : String × Int) : pairLE a a = true := by
  simp [pairLE]

theorem pairLE_total (a b : String × Int) :
    pairLE a b = true ∨ pairLE b a = true := by
  unfold pairLE
  by_cases h : a.1 = b.1
  · rw [if_pos h, if_pos h.symm]
    simp only [decide_eq_true_eq]
    omega
  · rw [if_neg h, if_neg (fun hc => h hc.symm)]
    exact strLE_total _ _

theorem pairLE_trans (a b c : String × Int) (h1 : pairLE a b = true)
    (h2 : pairLE b c = true) : pairLE a c = true := by
  unfold pairLE at h1 h2 ⊢
  by_cases hab : a.1 = b.1 <;> by_cases hbc : b.1 = c.1
  · rw [if_pos hab] at h1
    rw [if_pos hbc] at h2
    rw [if_pos (hab.trans hbc)]
    simp only [decide_eq_true_eq] at h1 h2 ⊢
    omega
  · rw [if_neg hbc] at h2
    rw [if_neg (fun hc => hbc (hab ▸ hc)), hab]
    exact h2
  · rw [if_neg hab] at h1
    rw [if_neg (fun hc => hab (hbc ▸ hc)), ← hbc]
    exact h1
  · rw [if_neg hab] at h1
    rw [if_neg hbc] at h2
    by_cases hac : a.1 = c.1
    · exact absurd (strLE_antisymm h1 (hac ▸ h2)) hab
    · rw [if_neg hac]
      exact strLE_trans h1 h2

theorem aggLE_refl (a : MonthlyAgg) : aggLE a a = true := by
  simp [aggLE]

theorem aggLE_total (a b : MonthlyAgg) : aggLE a b = true ∨ aggLE b a = true := by
  unfold aggLE
  by_cases h : a.fund_name = b.fund_name
  · rw [if_pos h, if_pos h.symm]
    simp only [decide_eq_true_eq]
    omega
  · rw [if_neg h, if_neg (fun hc => h hc.symm)]
    exact strLE_total _ _

theorem aggLE_trans (a b c : MonthlyAgg) (h1 : aggLE a b = true)
    (h2 : aggLE b c = true) : aggLE a c = true := by
  unfold aggLE at h1 h2 ⊢
  by_cases hab : a.fund_name = b.fund_name <;>
    by_cases hbc : b.fund_name = c.fund_name
  · rw [if_pos hab] at h1
    rw [if_pos hbc] at h2
    rw [if_pos (hab.trans hbc)]
    simp only [decide_eq_true_eq] at h1 h2 ⊢
    omega
  · rw [if_neg hbc] at h2
    rw [if_neg (fun hc => hbc (hab ▸ hc)), hab]
    exact h2
  · rw [if_neg hab] at h1
    rw [if_neg (fun hc => hab (hbc ▸ hc)), ← hbc]
    exact h1
  · rw [if_neg hab] at h1
    rw [if_neg hbc] at h2
    by_cases hac : a.fund_name = c.fund_name
    · exact absurd (strLE_antisymm h1 (hac ▸ h2)) hab
    · rw [if_neg hac]
      exact strLE_trans h1 h2

theorem retGeB_refl (a : RetVal) : retGeB a a = true := by
  cases a <;> simp [retGeB]

theorem retGeB_total (a b : RetVal) : retGeB a b = true ∨ retGeB b a = true := by
  cases a <;> cases b <;> simp [retGeB]
  exact le_total _ _

theorem retGeB_trans (a b c : RetVal) (h1 : retGeB a b = true)
    (h2 : retGeB b c = true) : retGeB a c = true := by
  cases a <;> cases b <;> cases c <;> simp_all [retGeB] <;> linarith

theorem returnsDescLE_total (a b : RetRow) :
    returnsDescLE a b = true ∨ returnsDescLE b a = true :=
  retGeB_total _ _

theorem returnsDescLE_trans (a b c : RetRow) (h1 : returnsDescLE a b = true)
    (h2 : returnsDescLE b c = true) : returnsDescLE a c = true :=
  retGeB_trans _ _ _ h1 h2

theorem monthRowLE_total (a b : RetRow) :
    monthRowLE a b = true ∨ monthRowLE b a = true := by
  simp only [monthRowLE, decide_eq_true_eq]
  omega

theorem monthRowLE_trans (a b c : RetRow) (h1 : monthRowLE a b = true)
    (h2 : monthRowLE b c = true) : monthRowLE a c = true := by
  simp only [monthRowLE, decide_eq_true_eq] at h1 h2 ⊢
  omega

/-! ### Properties of the as-of quote lookup -/

theorem dateLE_iff {d : Option Int} {dv : Int} :
    dateLE d dv = true ↔ ∃ x, d = some x ∧ x ≤ dv := by
  cases d <;> simp [dateLE]

theorem get_latest_price_mem {df : List Quote} {dv : Int} {q : Quote}
    (hq : q ∈ get_latest_price df dv) :
    q ∈ df ∧ dateLE q.datetime dv = true := by
  unfold get_latest_price at hq
  have h1 := dedupOn_subset (fun r : Quote => r.key) hq
  have h2 := mem_sortBy.mp h1
  exact List.mem_filter.mp h2

/-- The kept quote of a key has the latest date among all quotes of that
key dated at or before the query date. -/
theorem get_latest_price_max {df : List Quote} {dv : Int} {q : Quote}
    (hq : q ∈ get_latest_price df dv) :
    ∀ q' ∈ df, q'.key = q.key → dateLE q'.datetime dv = true →
      dateDescLE q.datetime q'.datetime = true := by
  intro q' hq' hkey hdate
  unfold get_latest_price at hq
  have hpw : (sortBy quoteLE (df.filter (fun r => dateLE r.datetime dv))).Pairwise
      (fun a b => quoteLE a b = true) :=
    pairwise_sortBy quoteLE quoteLE_total quoteLE_trans _
  have hfirst := dedupOn_first (fun r : Quote => r.key) quoteLE_refl hpw hq q'
    (mem_sortBy.mpr (List.mem_filter.mpr ⟨hq', hdate⟩)) hkey
  rw [quoteLE, if_pos hkey.symm] at hfirst
  exact hfirst

/-- Every key that has a quote at or before the query date is represented
in the lookup result. -/
theorem get_latest_price_cover {df : List Quote} {dv : Int} {q' : Quote}
    (hq' : q' ∈ df) (hdate : dateLE q'.datetime dv = true) :
    ∃ q ∈ get_latest_price df dv, q.key = q'.key := by
  unfold get_latest_price
  exact dedupOn_cover (fun r : Quote => r.key)
    (mem_sortBy.mpr (List.mem_filter.mpr ⟨hq', hdate⟩))

/-! ### Inversion of `reconcile_asset_type` -/

/-- Shape of every row of a successful per-asset-class reconciliation. -/
theorem mem_reconcile_asset_type
    {fund_df : List Holding} {reference_df : List Quote}
    {key : Holding → Option String} {out : List ReconRow}
    (hout : reconcile_asset_type fund_df reference_df key = some out)
    {r : ReconRow} (hr : r ∈ out) :
    ∃ dt : Int, r.pos ∈ fund_df ∧ r.pos.datetime = some dt ∧
      r.price_ref = ((get_latest_price reference_df dt).find?
          (fun q => q.key = key r.pos)).map (fun q => q.price) ∧
      r.price_diff = r.price_ref.map (fun p => round2 (r.pos.price - p)) := by
  unfold reconcile_asset_type at hout
  by_cases hemp : (dedupOn id (fund_df.filterMap (fun h => h.datetime))).isEmpty
  · rw [if_pos hemp] at hout
    exact absurd hout (by simp)
  · rw [if_neg hemp] at hout
    injection hout with hout
    subst hout
    rw [List.mem_flatMap] at hr
    obtain ⟨dt, hdt, hr⟩ := hr
    simp only [List.mem_map, List.mem_filter] at hr
    obtain ⟨r0, ⟨h0, ⟨hh0, hh0d⟩, rfl⟩, rfl⟩ := hr
    refine ⟨dt, hh0, of_decide_eq_true hh0d, ?_, ?_⟩
    · rfl
    · rfl

/-- Every holding with a non-null date produces a row of a successful
per-asset-class reconciliation. -/
theorem reconcile_asset_type_complete
    {fund_df : List Holding} {reference_df : List Quote}
    {key : Holding → Option String} {out : List ReconRow}
    (hout : reconcile_asset_type fund_df reference_df key = some out)
    {h0 : Holding} (hh0 : h0 ∈ fund_df) {d : Int} (hd : h0.datetime = some d) :
    ∃ r ∈ out, r.pos = h0 := by
  unfold reconcile_asset_type at hout
  by_cases hemp : (dedupOn id (fund_df.filterMap (fun h => h.datetime))).isEmpty
  · rw [if_pos hemp] at hout
    exact absurd hout (by simp)
  · rw [if_neg hemp] at hout
    injection hout with hout
    subst hout
    have hdts : d ∈ dedupOn id (fund_df.filterMap (fun h => h.datetime)) :=
      mem_dedupOn_id.mpr (List.mem_filterMap.mpr ⟨h0, hh0, hd⟩)
    refine ⟨calculate_price_diff
      { pos := h0
        price_ref := ((get_latest_price reference_df d).find?
          (fun q => q.key = key h0)).map (fun q => q.price)
        price_diff := none },
      List.mem_flatMap.mpr ⟨d, hdts, ?_⟩, rfl⟩
    simp only [List.mem_map, List.mem_filter]
    exact ⟨_, ⟨h0, ⟨hh0, decide_eq_true hd⟩, rfl⟩, rfl⟩

/-! ### Concrete tables used by the witnesses -/

def hEq1 : Holding :=
  { fund_name := "FundA", datetime := some 10, financial_type := AssetType_EQUITY
    symbol := some "AAPL", isin := none, price := 150, market_value := 0
    realized_pl := 0 }

def hBd1 : Holding :=
  { fund_name := "FundA", datetime := some 10, financial_type := AssetType_BONDS
    symbol := some "B123", isin := some "ISIN123", price := 101, market_value := 0
    realized_pl := 0 }

def eqQuotes : List Quote :=
  [{ datetime := some 5, key := some "AAPL", price := 147 },
   { datetime := some 8, key := some "AAPL", price := 148 },
   { datetime := some 20, key := some "AAPL", price := 150 }]

def bdQuotes : List Quote :=
  [{ datetime := some 7, key := some "ISIN123", price := 99 }]

def posC : List Holding := [hEq1, hBd1]

def outC1 : List ReconRow :=
  [{ pos := hEq1, price_ref := some 148, price_diff := some (round2 (150 - 148)) }]

def outC7 : List ReconRow :=
  [{ pos := hEq1, price_ref := some 148, price_diff := some (round2 (150 - 148)) },
   { pos := hBd1, price_ref := some 99, price_diff := some (round2 (101 - 99)) }]

/-- C1: for every holding with a non-null date the reconciliation output of
`_reconcile_asset_type` contains a row pairing it with a quote of the
holding's matching key, and for every output row either `reference_price`
is the price of a quote of that key whose date is the maximum among quote
dates at or before the holding's date — in particular never a quote dated
strictly after the holding's date — or no quote of the key is dated at or
before the holding's date and `reference_price` is null. -/
theorem C1_asof_correctness
    (fund_df : List Holding) (reference_df : List Quote)
    (key : Holding → Option String) (out : List ReconRow)
    (hout : reconcile_asset_type fund_df reference_df key = some out) :
    (∀ h0 ∈ fund_df, ∀ d : Int, h0.datetime = some d → ∃ r ∈ out, r.pos = h0) ∧
    (∀ r ∈ out, r.pos ∈ fund_df ∧ ∃ d : Int, r.pos.datetime = some d ∧
      ((∃ q ∈ reference_df, q.key = key r.pos ∧ r.price_ref = some q.price ∧
          ∃ dq : Int, q.datetime = some dq ∧ dq ≤ d ∧
            ∀ q' ∈ reference_df, q'.key = key r.pos →
              ∀ dq' : Int, q'.datetime = some dq' → dq' ≤ d → dq' ≤ dq) ∨
       (r.price_ref = none ∧ ∀ q ∈ reference_df, q.key = key r.pos →
          ∀ dq : Int, q.datetime = some dq → ¬ dq ≤ d))) := by
  constructor
  · intro h0 hh0 d hd
    exact reconcile_asset_type_complete hout hh0 hd
  · intro r hr
    obtain ⟨dt, hpos, hdt, href, -⟩ := mem_reconcile_asset_type hout hr
    refine ⟨hpos, dt, hdt, ?_⟩
    cases hfind : (get_latest_price reference_df dt).find?
        (fun q => q.key = key r.pos) with
    | none =>
      right
      rw [hfind] at href
      refine ⟨href, ?_⟩
      intro q hq hkey dq hdq hle
      have hdate : dateLE q.datetime dt = true := dateLE_iff.mpr ⟨dq, hdq, hle⟩
      obtain ⟨x, hx, hxkey⟩ := get_latest_price_cover hq hdate
      exact (List.find?_eq_none.mp hfind x hx) (decide_eq_true (hxkey.trans hkey))
    | some q =>
      left
      have hqmem := List.mem_of_find?_eq_some hfind
      have hpq := List.find?_some hfind
      have hqkey : q.key = key r.pos := of_decide_eq_true hpq
      obtain ⟨hqdf, hqdate⟩ := get_latest_price_mem hqmem
      obtain ⟨dq, hdq, hdqle⟩ := dateLE_iff.mp hqdate
      rw [hfind] at href
      refine ⟨q, hqdf, hqkey, href, dq, hdq, hdqle, ?_⟩
      intro q' hq' hq'key dq' hdq' hle'
      have h1 := get_latest_price_max hqmem q' hq' (hq'key.trans hqkey.symm)
        (dateLE_iff.mpr ⟨dq', hdq', hle'⟩)
      rw [hdq, hdq'] at h1
      simpa [dateDescLE] using h1

theorem C1_witness :
    reconcile_asset_type [hEq1] eqQuotes (fun h => h.symbol) = some outC1 ∧
    hEq1 ∈ [hEq1] ∧ hEq1.datetime = some 10 ∧
    ∃ r ∈ outC1, r.pos = hEq1 :=
  ⟨rfl, List.mem_cons_self _ _, rfl,
    (C1_asof_correctness [hEq1] eqQuotes (fun h => h.symbol) outC1 rfl).1
      hEq1 (List.mem_cons_self _ _) 10 rfl⟩

/-- C7: in every row of a successful `reconcile_prices` run, a matched row
has `price_diff = round2 (price - reference_price)` and an unmatched row
(null `reference_price`) has a null `price_diff`; the computation is total
(no exception) and the null is not replaced by a default. -/
theorem C7_diff_correctness
    (fund_positions : List Holding) (equity_prices bond_prices : List Quote)
    (out : List ReconRow)
    (hout : reconcile_prices fund_positions equity_prices bond_prices = some out) :
    ∀ r ∈ out,
      (∀ p : ℚ, r.price_ref = some p →
        r.price_diff = some (round2 (r.pos.price - p))) ∧
      (r.price_ref = none → r.price_diff = none) := by
  unfold reconcile_prices at hout
  cases hE : reconcile_asset_type
      (filter_by_asset_type fund_positions AssetType_EQUITY) equity_prices
      (fun h => h.symbol) with
  | none => rw [hE] at hout; exact absurd hout (by simp)
  | some eqrep =>
    cases hB : reconcile_asset_type
        (filter_by_asset_type fund_positions AssetType_BONDS) bond_prices
        (fun h => h.isin) with
    | none => rw [hE, hB] at hout; exact absurd hout (by simp)
    | some bdrep =>
      rw [hE, hB] at hout
      injection hout with hout
      subst hout
      intro r hr
      have hdiff : r.price_diff = r.price_ref.map (fun p => round2 (r.pos.price - p)) := by
        rcases List.mem_append.mp hr with h | h
        · obtain ⟨dt, -, -, -, hdiff⟩ := mem_reconcile_asset_type hE h
          exact hdiff
        · obtain ⟨dt, -, -, -, hdiff⟩ := mem_reconcile_asset_type hB h
          exact hdiff
      constructor
      · intro p hp
        rw [hdiff, hp]
        rfl
      · intro hp
        rw [hdiff, hp]
        rfl

theorem C7_witness :
    reconcile_prices posC eqQuotes bdQuotes = some outC7 ∧
    ∀ r ∈ outC7,
      (∀ p : ℚ, r.price_ref = some p →
        r.price_diff = some (round2 (r.pos.price - p))) ∧
      (r.price_ref = none → r.price_diff = none) :=
  ⟨rfl, C7_diff_correctness posC eqQuotes bdQuotes outC7 rfl⟩

def hBd0 : Holding :=
  { fund_name := "FundA", datetime := some 10, financial_type := AssetType_BONDS
    symbol := some "B123", isin := none, price := 101, market_value := 0
    realized_pl := 0 }

/-- C9 counterexample: the engine does write the `isin` field — the ISIN
fix-up inside `PriceReconciler.load_and_prepare_data` overwrites the null
`isin` of a bond holding with its `symbol`. -/
theorem C9_counterexample :
    (fix_bond_isin [hBd0]).map (fun h => h.isin) = [some "B123"] ∧
    hBd0.isin = none :=
  ⟨rfl, rfl⟩

/-- C9 amended: the engine itself performs the symbol-to-isin copy during
`load_and_prepare_data` — every bond row's `isin` is overwritten with its
`symbol`, all other fields and all non-bond rows are unchanged — while
`reconcile_prices` leaves each output row's holding columns (including
`symbol` and `isin`) exactly as they are in its prepared input. -/
theorem C9_engine_isin
    (fund_positions : List Holding) (equity_prices bond_prices : List Quote)
    (out : List ReconRow)
    (hout : reconcile_prices fund_positions equity_prices bond_prices = some out) :
    (∀ r ∈ out, r.pos ∈ fund_positions) ∧
    (∀ (hs : List Holding) (i : ℕ) (h h' : Holding),
      hs[i]? = some h → (fix_bond_isin hs)[i]? = some h' →
      h'.fund_name = h.fund_name ∧ h'.datetime = h.datetime ∧
      h'.financial_type = h.financial_type ∧ h'.symbol = h.symbol ∧
      h'.price = h.price ∧ h'.market_value = h.market_value ∧
      h'.realized_pl = h.realized_pl ∧
      h'.isin = (if h.financial_type = AssetType_BONDS then h.symbol else h.isin)) := by
  constructor
  · unfold reconcile_prices at hout
    cases hE : reconcile_asset_type
        (filter_by_asset_type fund_positions AssetType_EQUITY) equity_prices
        (fun h => h.symbol) with
    | none => rw [hE] at hout; exact absurd hout (by simp)
    | some eqrep =>
      cases hB : reconcile_asset_type
          (filter_by_asset_type fund_positions AssetType_BONDS) bond_prices
          (fun h => h.isin) with
      | none => rw [hE, hB] at hout; exact absurd hout (by simp)
      | some bdrep =>
        rw [hE, hB] at hout
        injection hout with hout
        subst hout
        intro r hr
        rcases List.mem_append.mp hr with h | h
        · obtain ⟨dt, hpos, -, -, -⟩ := mem_reconcile_asset_type hE h
          exact List.mem_of_mem_filter hpos
        · obtain ⟨dt, hpos, -, -, -⟩ := mem_reconcile_asset_type hB h
          exact List.mem_of_mem_filter hpos
  · intro hs i h h' hh hh'
    unfold fix_bond_isin at hh'
    rw [List.getElem?_map, hh] at hh'
    rw [Option.map_some'] at hh'
    injection hh' with hh'
    subst hh'
    by_cases hb : h.financial_type = AssetType_BONDS
    · simp [hb]
    · simp [hb]

theorem C9_witness :
    reconcile_prices posC eqQuotes bdQuotes = some outC7 ∧
    ((∀ r ∈ outC7, r.pos ∈ posC) ∧
     (∀ (hs : List Holding) (i : ℕ) (h h' : Holding),
       hs[i]? = some h → (fix_bond_isin hs)[i]? = some h' →
       h'.fund_name = h.fund_name ∧ h'.datetime = h.datetime ∧
       h'.financial_type = h.financial_type ∧ h'.symbol = h.symbol ∧
       h'.price = h.price ∧ h'.market_value = h.market_value ∧
       h'.realized_pl = h.realized_pl ∧
       h'.isin = (if h.financial_type = AssetType_BONDS then h.symbol else h.isin))) :=
  ⟨rfl, C9_engine_isin posC eqQuotes bdQuotes outC7 rfl⟩

/-- C10: a holdings table in which one asset class has no row with a
non-null date makes `reconcile_prices` raise (the `pd.concat` of zero
per-date frames), rather than returning the other asset class's rows as
the report. -/
theorem C10_undated_class_raises
    (fund_positions : List Holding) (equity_prices bond_prices : List Quote)
    (hcase :
      (∀ h ∈ fund_positions, h.financial_type = AssetType_EQUITY →
        h.datetime = none) ∨
      (∀ h ∈ fund_positions, h.financial_type = AssetType_BONDS →
        h.datetime = none)) :
    reconcile_prices fund_positions equity_prices bond_prices = none := by
  have key : ∀ (t : String) (ref : List Quote) (k : Holding → Option String),
      (∀ h ∈ fund_positions, h.financial_type = t → h.datetime = none) →
      reconcile_asset_type (filter_by_asset_type fund_positions t) ref k = none := by
    intro t ref k hall
    unfold reconcile_asset_type
    have hnil : (filter_by_asset_type fund_positions t).filterMap
        (fun h => h.datetime) = [] := by
      rw [List.filterMap_eq_nil_iff]
      intro a ha
      have hmem := List.mem_filter.mp ha
      exact hall a hmem.1 (of_decide_eq_true hmem.2)
    rw [hnil]
    rfl
  unfold reconcile_prices
  rcases hcase with hc | hc
  · rw [key AssetType_EQUITY equity_prices (fun h => h.symbol) hc]
  · rw [key AssetType_BONDS bond_prices (fun h => h.isin) hc]
    cases reconcile_asset_type (filter_by_asset_type fund_positions AssetType_EQUITY)
        equity_prices (fun h => h.symbol) <;> rfl

theorem C10_witness :
    (∀ h ∈ ([] : List Holding), h.financial_type = AssetType_EQUITY →
      h.datetime = none) ∧
    reconcile_prices [] eqQuotes bdQuotes = none :=
  ⟨by simp, C10_undated_class_raises [] eqQuotes bdQuotes (Or.inl (by simp))⟩

/-! ### Properties of the monthly aggregation -/

theorem aggregate_keys_pairwise (P : List PHolding) :
    (aggregate_monthly_data P).Pairwise
      (fun a b => (a.fund_name, a.month) ≠ (b.fund_name, b.month)) := by
  unfold aggregate_monthly_data
  rw [List.pairwise_map]
  have h1 := dedupOnAux_keys_pairwise id ([] : List (String × Int))
    (P.map (fun h => (h.fund_name, h.month)))
  have h2 : (sortBy pairLE
      (dedupOn id (P.map (fun h => (h.fund_name, h.month))))).Pairwise
      (fun a b => a ≠ b) :=
    ((sortBy_perm pairLE _).pairwise_iff (fun hab hc => hab hc.symm)).mpr h1
  exact h2

theorem mem_aggregate {P : List PHolding} {a : MonthlyAgg} :
    a ∈ aggregate_monthly_data P ↔
      ∃ k ∈ P.map (fun h => (h.fund_name, h.month)), a = aggRow P k := by
  unfold aggregate_monthly_data
  rw [List.mem_map]
  constructor
  · rintro ⟨k, hk, rfl⟩
    exact ⟨k, mem_dedupOn_id.mp (mem_sortBy.mp hk), rfl⟩
  · rintro ⟨k, hk, rfl⟩
    exact ⟨k, mem_sortBy.mpr (mem_dedupOn_id.mpr hk), rfl⟩

/-- C5: every `(fund, month)` pair present in the holdings input yields
exactly one aggregated row, whose `mv_end` and `realized_pnl` are the
sums of `market_value` and `realized_pl` over exactly the holding rows
of that fund and month. -/
theorem C5_aggregation_correctness (fund_positions : List PHolding)
    (f : String) (m : Int)
    (hpres : ∃ h ∈ fund_positions, h.fund_name = f ∧ h.month = m) :
    ∃ r : MonthlyAgg,
      (aggregate_monthly_data fund_positions).filter
        (fun a => decide (a.fund_name = f ∧ a.month = m)) = [r] ∧
      r.MV_end = ((fund_positions.filter
        (fun h => decide (h.fund_name = f ∧ h.month = m))).map
          (fun h => h.market_value)).sum ∧
      r.realized_pnl = ((fund_positions.filter
        (fun h => decide (h.fund_name = f ∧ h.month = m))).map
          (fun h => h.realized_pl)).sum := by
  obtain ⟨h0, hh0, hf, hm⟩ := hpres
  have hkmem : (f, m) ∈ fund_positions.map (fun h => (h.fund_name, h.month)) :=
    List.mem_map.mpr ⟨h0, hh0, by rw [hf, hm]⟩
  have hrmem : aggRow fund_positions (f, m) ∈ aggregate_monthly_data fund_positions :=
    mem_aggregate.mpr ⟨(f, m), hkmem, rfl⟩
  refine ⟨aggRow fund_positions (f, m), ?_, rfl, rfl⟩
  have hsingle := filter_eq_single_of_keys_pairwise
    (fun a : MonthlyAgg => (a.fund_name, a.month))
    (aggregate_keys_pairwise fund_positions) hrmem
  have hcongr : ∀ a : MonthlyAgg,
      (decide ((a.fund_name, a.month) =
        ((aggRow fund_positions (f, m)).fund_name,
         (aggRow fund_positions (f, m)).month)))
      = decide (a.fund_name = f ∧ a.month = m) := by
    intro a
    apply decide_eq_decide.mpr
    constructor
    · intro hc
      have h1 : a.fund_name = f := congrArg Prod.fst hc
      have h2 : a.month = m := congrArg Prod.snd hc
      exact ⟨h1, h2⟩
    · rintro ⟨h1, h2⟩
      rw [h1, h2]
      rfl
  rw [← List.filter_congr (fun a _ => hcongr a)]
  exact hsingle

def perfP : List PHolding :=
  [{ fund_name := "FundA", month := 1, market_value := 100, realized_pl := 10 },
   { fund_name := "FundA", month := 2, market_value := 110, realized_pl := 15 }]

theorem C5_witness :
    (∃ h ∈ perfP, h.fund_name = "FundA" ∧ h.month = 1) ∧
    ∃ r : MonthlyAgg,
      (aggregate_monthly_data perfP).filter
        (fun a => decide (a.fund_name = "FundA" ∧ a.month = 1)) = [r] ∧
      r.MV_end = ((perfP.filter
        (fun h => decide (h.fund_name = "FundA" ∧ h.month = 1))).map
          (fun h => h.market_value)).sum ∧
      r.realized_pnl = ((perfP.filter
        (fun h => decide (h.fund_name = "FundA" ∧ h.month = 1))).map
          (fun h => h.realized_pl)).sum :=
  ⟨⟨{ fund_name := "FundA", month := 1, market_value := 100, realized_pl := 10 },
      List.mem_cons_self _ _, rfl, rfl⟩,
    C5_aggregation_correctness perfP "FundA" 1
      ⟨{ fund_name := "FundA", month := 1, market_value := 100, realized_pl := 10 },
        List.mem_cons_self _ _, rfl, rfl⟩⟩

/-! ### Properties of the lagged market-value computation -/

theorem mem_shiftMV : ∀ {l pre : List MonthlyAgg} {p : MonthlyAgg × Option ℚ},
    p ∈ shiftMV pre l →
    ∃ l1 l2, l = l1 ++ p.1 :: l2 ∧
      p.2 = (((pre ++ l1).filter
        (fun x => x.fund_name = p.1.fund_name)).getLast?).map
          (fun x => x.MV_end) := by
  intro l
  induction l with
  | nil => intro pre p hp; simp [shiftMV] at hp
  | cons r rs ih =>
    intro pre p hp
    rw [shiftMV] at hp
    rcases List.mem_cons.mp hp with rfl | hp
    · exact ⟨[], rs, rfl, by simp⟩
    · obtain ⟨l1, l2, heq, hval⟩ := ih hp
      refine ⟨r :: l1, l2, by rw [heq, List.cons_append], ?_⟩
      rw [hval]
      rw [show pre ++ [r] ++ l1 = pre ++ (r :: l1) from by
        rw [List.append_assoc]; rfl]

theorem pairwise_getLast_max {R : α → α → Prop} :
    ∀ {l : List α} {z : α}, l.Pairwise R → l.getLast? = some z →
      ∀ x ∈ l, x = z ∨ R x z := by
  intro l
  induction l with
  | nil => intro z _ hz; simp at hz
  | cons a t ih =>
    intro z hp hz x hx
    cases t with
    | nil =>
      simp only [List.getLast?_singleton, Option.some.injEq] at hz
      subst hz
      rcases List.mem_cons.mp hx with rfl | hx
      · exact Or.inl rfl
      · simp at hx
    | cons b t2 =>
      rw [List.getLast?_cons_cons] at hz
      rcases List.pairwise_cons.mp hp with ⟨ha, hp2⟩
      rcases List.mem_cons.mp hx with rfl | hx
      · refine Or.inr (ha z ?_)
        obtain ⟨ys, hys⟩ := List.getLast?_eq_some_iff.mp hz
        rw [hys]
        simp
      · exact ih hp2 hz x hx

theorem mem_calculate_mv_start {df : List MonthlyAgg} {row : MvRow}
    (hrow : row ∈ calculate_mv_start df) :
    ∃ (l1 l2 : List MonthlyAgg) (r prev : MonthlyAgg),
      sortBy aggLE df = l1 ++ r :: l2 ∧
      (l1.filter (fun x => x.fund_name = r.fund_name)).getLast? = some prev ∧
      row = { fund_name := r.fund_name, month := r.month, MV_end := r.MV_end
              realized_pnl := r.realized_pnl, MV_start := prev.MV_end } := by
  unfold calculate_mv_start at hrow
  rw [List.mem_filterMap] at hrow
  obtain ⟨p, hp, hmk⟩ := hrow
  obtain ⟨l1, l2, heq, hval⟩ := mem_shiftMV hp
  rw [List.nil_append] at hval
  cases hV : p.2 with
  | none =>
    rw [hV] at hmk
    exact absurd hmk (by simp)
  | some v =>
    rw [hV] at hmk hval
    rw [Option.map_some'] at hmk
    injection hmk with hmk
    cases hgl : (l1.filter (fun x => x.fund_name = p.1.fund_name)).getLast? with
    | none =>
      rw [hgl] at hval
      exact absurd hval (by simp)
    | some prev =>
      rw [hgl, Option.map_some'] at hval
      injection hval with hval
      exact ⟨l1, l2, p.1, prev, heq, hgl, by rw [← hmk, hval]⟩

/-- Counting the rows a fund keeps after the shift-and-dropna step: all
its rows except the first one of the walk (none is dropped when an
earlier same-fund row already sits in `pre`). -/
theorem shiftMV_count (f : String) :
    ∀ (l pre : List MonthlyAgg),
      (((shiftMV pre l).filterMap fun p =>
          p.2.map fun v =>
            ({ fund_name := p.1.fund_name, month := p.1.month
               MV_end := p.1.MV_end, realized_pnl := p.1.realized_pnl
               MV_start := v } : MvRow)).countP
        (fun row => row.fund_name = f))
      = if pre.filter (fun x => x.fund_name = f) = []
          then l.countP (fun x => x.fund_name = f) - 1
          else l.countP (fun x => x.fund_name = f) := by
  intro l
  induction l with
  | nil =>
    intro pre
    by_cases hemp : pre.filter (fun x => x.fund_name = f) = [] <;>
      simp [shiftMV, hemp]
  | cons r rs ih =>
    intro pre
    rw [shiftMV]
    by_cases hb : r.fund_name = f
    · have hfil : pre.filter (fun x => x.fund_name = r.fund_name)
          = pre.filter (fun x => x.fund_name = f) :=
        List.filter_congr (fun x _ => by rw [hb])
      have happ : (pre ++ [r]).filter (fun x => x.fund_name = f)
          = pre.filter (fun x => x.fund_name = f) ++ [r] := by
        rw [List.filter_append]
        congr 1
        simp [hb]
      have hne : (pre ++ [r]).filter (fun x => x.fund_name = f) ≠ [] := by
        rw [happ]
        simp
      by_cases hemp : pre.filter (fun x => x.fund_name = f) = []
      · rw [List.filterMap_cons]
        rw [hfil, hemp]
        simp only [List.getLast?_nil, Option.map_none']
        rw [ih (pre ++ [r]), if_neg hne]
        rw [if_pos trivial, List.countP_cons_of_pos _ _ (by simp [hb])]
        omega
      · obtain ⟨prev, hprev⟩ : ∃ prev,
            (pre.filter (fun x => x.fund_name = r.fund_name)).getLast?
              = some prev := by
          rw [hfil]
          cases hgl : (pre.filter (fun x => x.fund_name = f)).getLast? with
          | none => exact absurd (List.getLast?_eq_none.mp hgl) hemp
          | some prev => exact ⟨prev, rfl⟩
        rw [List.filterMap_cons, hprev]
        simp only [Option.map_some']
        rw [List.countP_cons_of_pos _ _ (by simp [hb])]
        rw [ih (pre ++ [r]), if_neg hne, if_neg hemp,
          List.countP_cons_of_pos _ _ (by simp [hb])]
    · have happ : (pre ++ [r]).filter (fun x => x.fund_name = f)
          = pre.filter (fun x => x.fund_name = f) := by
        rw [List.filter_append]
        simp [hb]
      rw [List.filterMap_cons]
      cases hgl : ((pre.filter (fun x => x.fund_name = r.fund_name)).getLast?) with
      | none =>
        simp only [Option.map_none']
        rw [ih (pre ++ [r]), happ, List.countP_cons_of_neg _ _ (by simp [hb])]
      | some prev =>
        simp only [Option.map_some']
        rw [List.countP_cons_of_neg _ _ (by simp [hb])]
        rw [ih (pre ++ [r]), happ, List.countP_cons_of_neg _ _ (by simp [hb])]

theorem countP_aggregate (P : List PHolding) (f : String) :
    (aggregate_monthly_data P).countP (fun a => a.fund_name = f)
      = (monthsOf P f).length := by
  unfold aggregate_monthly_data
  rw [List.countP_map]
  have hfun : ((fun a : MonthlyAgg => decide (a.fund_name = f)) ∘ aggRow P)
      = fun k : String × Int => decide (k.1 = f) := rfl
  rw [hfun, (sortBy_perm pairLE _).countP_eq, List.countP_eq_length_filter]
  have hD_nodup : (dedupOn id (P.map (fun h => (h.fund_name, h.month)))).Nodup :=
    dedupOnAux_keys_pairwise id [] _
  have hA_nodup : ((dedupOn id (P.map (fun h => (h.fund_name, h.month)))).filter
      (fun k => decide (k.1 = f))).Nodup := hD_nodup.filter _
  have hmap_nodup : (((dedupOn id (P.map (fun h => (h.fund_name, h.month)))).filter
      (fun k => decide (k.1 = f))).map Prod.snd).Nodup := by
    refine List.Nodup.map_on ?_ hA_nodup
    intro x hx y hy hxy
    have hx1 : x.1 = f := of_decide_eq_true (List.mem_filter.mp hx).2
    have hy1 : y.1 = f := of_decide_eq_true (List.mem_filter.mp hy).2
    exact Prod.ext (hx1.trans hy1.symm) hxy
  have hB_nodup : (monthsOf P f).Nodup := dedupOnAux_keys_pairwise id [] _
  have hmem : ∀ m : Int,
      m ∈ ((dedupOn id (P.map (fun h => (h.fund_name, h.month)))).filter
        (fun k => decide (k.1 = f))).map Prod.snd ↔ m ∈ monthsOf P f := by
    intro m
    unfold monthsOf
    rw [List.mem_map, mem_dedupOn_id, List.mem_map]
    constructor
    · rintro ⟨k, hk, rfl⟩
      have hk1 : k.1 = f := of_decide_eq_true (List.mem_filter.mp hk).2
      have hkD := mem_dedupOn_id.mp (List.mem_filter.mp hk).1
      rw [List.mem_map] at hkD
      obtain ⟨h0, hh0, hk0⟩ := hkD
      have hfst : h0.fund_name = k.1 := congrArg Prod.fst hk0
      have hsnd : h0.month = k.2 := congrArg Prod.snd hk0
      exact ⟨h0, List.mem_filter.mpr
        ⟨hh0, decide_eq_true (hfst.trans hk1)⟩, hsnd⟩
    · rintro ⟨h0, hh0f, hm0⟩
      obtain ⟨hh0, hh0p⟩ := List.mem_filter.mp hh0f
      have hf0 : h0.fund_name = f := of_decide_eq_true hh0p
      refine ⟨(f, m), List.mem_filter.mpr ⟨mem_dedupOn_id.mpr ?_, by simp⟩, rfl⟩
      rw [List.mem_map]
      exact ⟨h0, hh0, by rw [hf0, hm0]⟩
  have hperm := (List.perm_ext_iff_of_nodup hmap_nodup hB_nodup).mpr hmem
  calc ((dedupOn id (P.map (fun h => (h.fund_name, h.month)))).filter
        (fun k => decide (k.1 = f))).length
      = (((dedupOn id (P.map (fun h => (h.fund_name, h.month)))).filter
        (fun k => decide (k.1 = f))).map Prod.snd).length :=
        (List.length_map _ _).symm
    _ = (monthsOf P f).length := hperm.length_eq

theorem countP_calculate_monthly_returns (P : List PHolding) (f : String) :
    (calculate_monthly_returns P).countP (fun r => r.fund_name = f)
      = (monthsOf P f).length - 1 := by
  unfold calculate_monthly_returns compute_returns
  rw [List.countP_map]
  have hfun : ((fun r : RetRow => decide (r.fund_name = f)) ∘ fun r : MvRow =>
      ({ fund_name := r.fund_name, month := r.month, MV_end := r.MV_end
         realized_pnl := r.realized_pnl, MV_start := r.MV_start
         rate_of_return := roundRet (rdiv (r.MV_end - r.MV_start + r.realized_pnl)
           r.MV_start) } : RetRow))
      = fun r : MvRow => decide (r.fund_name = f) := rfl
  rw [hfun]
  unfold calculate_mv_start
  rw [shiftMV_count f (sortBy aggLE (aggregate_monthly_data P)) []]
  have hcond : List.filter (fun x => decide (x.fund_name = f))
      ([] : List MonthlyAgg) = [] := rfl
  rw [if_pos hcond, (sortBy_perm aggLE _).countP_eq, countP_aggregate]

/-- Every row of the monthly-return table carries as `MV_start` the
`MV_end` of the same fund's closest earlier aggregated month. -/
theorem mv_start_of_mem_returns {P : List PHolding} {row : RetRow}
    (hrow : row ∈ calculate_monthly_returns P) :
    ∃ prev ∈ aggregate_monthly_data P,
      prev.fund_name = row.fund_name ∧ prev.month < row.month ∧
      row.MV_start = prev.MV_end ∧
      ∀ a ∈ aggregate_monthly_data P, a.fund_name = row.fund_name →
        a.month < row.month → a.month ≤ prev.month := by
  unfold calculate_monthly_returns compute_returns at hrow
  rw [List.mem_map] at hrow
  obtain ⟨m, hm, rfl⟩ := hrow
  obtain ⟨l1, l2, r, prev, hsplit, hlast, hm_eq⟩ := mem_calculate_mv_start hm
  subst hm_eq
  have hS_pw : (sortBy aggLE (aggregate_monthly_data P)).Pairwise
      (fun a b => aggLE a b = true) :=
    pairwise_sortBy aggLE aggLE_total aggLE_trans _
  have hS_keys : (sortBy aggLE (aggregate_monthly_data P)).Pairwise
      (fun a b => (a.fund_name, a.month) ≠ (b.fund_name, b.month)) :=
    ((sortBy_perm aggLE _).pairwise_iff (fun hab hc => hab hc.symm)).mpr
      (aggregate_keys_pairwise P)
  rw [hsplit] at hS_pw hS_keys
  obtain ⟨pw_l1, pw_rl2, rel⟩ := List.pairwise_append.mp hS_pw
  obtain ⟨hr_l2, pw_l2⟩ := List.pairwise_cons.mp pw_rl2
  obtain ⟨-, -, krel⟩ := List.pairwise_append.mp hS_keys
  have hprevf : prev ∈ l1.filter (fun x => x.fund_name = r.fund_name) := by
    obtain ⟨ys, hys⟩ := List.getLast?_eq_some_iff.mp hlast
    rw [hys]
    simp
  have hprev_l1 : prev ∈ l1 := List.mem_of_mem_filter hprevf
  have hpf : prev.fund_name = r.fund_name :=
    of_decide_eq_true (List.mem_filter.mp hprevf).2
  have hprev_agg : prev ∈ aggregate_monthly_data P := by
    have : prev ∈ sortBy aggLE (aggregate_monthly_data P) := by
      rw [hsplit]
      exact List.mem_append.mpr (Or.inl hprev_l1)
    exact mem_sortBy.mp this
  have hprevLE : aggLE prev r = true :=
    rel prev hprev_l1 r (List.mem_cons_self _ _)
  rw [aggLE, if_pos hpf] at hprevLE
  have hprev_le : prev.month ≤ r.month := of_decide_eq_true hprevLE
  have hprev_ne : prev.month ≠ r.month := by
    intro hc
    exact krel prev hprev_l1 r (List.mem_cons_self _ _) (by rw [hpf, hc])
  have hprev_lt : prev.month < r.month := lt_of_le_of_ne hprev_le hprev_ne
  refine ⟨prev, hprev_agg, hpf, hprev_lt, rfl, ?_⟩
  intro a ha haf ham
  have ham' : a.month < r.month := ham
  have haS : a ∈ sortBy aggLE (aggregate_monthly_data P) := mem_sortBy.mpr ha
  rw [hsplit] at haS
  rcases List.mem_append.mp haS with ha1 | ha2
  · have hafil : a ∈ l1.filter (fun x => x.fund_name = r.fund_name) :=
      List.mem_filter.mpr ⟨ha1, decide_eq_true haf⟩
    have pw_fil : (l1.filter (fun x => x.fund_name = r.fund_name)).Pairwise
        (fun a b => aggLE a b = true) := pw_l1.filter _
    rcases pairwise_getLast_max pw_fil hlast a hafil with rfl | hle
    · exact le_refl _
    · rw [aggLE, if_pos (haf.trans hpf.symm)] at hle
      exact of_decide_eq_true hle
  · rcases List.mem_cons.mp ha2 with rfl | ha2
    · exact absurd ham' (lt_irrefl _)
    · have h5 := hr_l2 a ha2
      rw [aggLE, if_pos haf.symm] at h5
      have h6 := of_decide_eq_true h5
      omega

/-- C3: a fund observed in at least two distinct months contributes
exactly (number of observed months minus one) rows to the monthly-return
table, each row's `MV_start` being the fund's immediately preceding
observed month's `MV_end`; a fund observed in exactly one month
contributes zero rows. -/
theorem C3_lag_correctness (fund_positions : List PHolding) (f : String) :
    (2 ≤ (monthsOf fund_positions f).length →
      (calculate_monthly_returns fund_positions).countP
          (fun r => r.fund_name = f)
        = (monthsOf fund_positions f).length - 1 ∧
      ∀ row ∈ calculate_monthly_returns fund_positions, row.fund_name = f →
        ∃ prev ∈ aggregate_monthly_data fund_positions,
          prev.fund_name = f ∧ prev.month < row.month ∧
          row.MV_start = prev.MV_end ∧
          ∀ a ∈ aggregate_monthly_data fund_positions, a.fund_name = f →
            a.month < row.month → a.month ≤ prev.month) ∧
    ((monthsOf fund_positions f).length = 1 →
      (calculate_monthly_returns fund_positions).countP
        (fun r => r.fund_name = f) = 0) := by
  constructor
  · intro _
    refine ⟨countP_calculate_monthly_returns fund_positions f, ?_⟩
    intro row hrow hf
    obtain ⟨prev, hprev, h1, h2, h3, h4⟩ := mv_start_of_mem_returns hrow
    rw [hf] at h1 h4
    exact ⟨prev, hprev, h1, h2, h3, h4⟩
  · intro h1
    rw [countP_calculate_monthly_returns fund_positions f, h1]

theorem C3_witness :
    2 ≤ (monthsOf perfP "FundA").length ∧
    ((calculate_monthly_returns perfP).countP
        (fun r => r.fund_name = "FundA")
      = (monthsOf perfP "FundA").length - 1 ∧
     ∀ row ∈ calculate_monthly_returns perfP, row.fund_name = "FundA" →
       ∃ prev ∈ aggregate_monthly_data perfP,
         prev.fund_name = "FundA" ∧ prev.month < row.month ∧
         row.MV_start = prev.MV_end ∧
         ∀ a ∈ aggregate_monthly_data perfP, a.fund_name = "FundA" →
           a.month < row.month → a.month ≤ prev.month) :=
  ⟨by decide, (C3_lag_correctness perfP "FundA").1 (by decide)⟩

/-- C2: invoked on an empty holdings table, the monthly-return
computation returns an empty table and raises no error — contradicting
the spec and the repository's own test, which demand a descriptive
empty-data `ValueError`. -/
theorem C2_empty_returns_empty :
    calculate_monthly_returns ([] : List PHolding) = [] := rfl

/-- C6: every row of the monthly-return table satisfies
`rate_of_return = round((MV_end - MV_start + realized_pnl) / MV_start, 4)`
under IEEE-754 division semantics (`rdiv`/`roundRet`). -/
theorem C6_return_formula (fund_positions : List PHolding) :
    ∀ r ∈ calculate_monthly_returns fund_positions,
      r.rate_of_return =
        roundRet (rdiv (r.MV_end - r.MV_start + r.realized_pnl) r.MV_start) := by
  intro r hr
  unfold calculate_monthly_returns compute_returns at hr
  rw [List.mem_map] at hr
  obtain ⟨m, hm, rfl⟩ := hr
  rfl

def perfRow : RetRow :=
  { fund_name := "FundA", month := 2, MV_end := 110 + 0, realized_pnl := 15 + 0
    MV_start := 100 + 0
    rate_of_return :=
      roundRet (rdiv (110 + 0 - (100 + 0) + (15 + 0)) (100 + 0)) }

theorem C6_witness :
    perfRow ∈ calculate_monthly_returns perfP ∧
    perfRow.rate_of_return = roundRet (rdiv
      (perfRow.MV_end - perfRow.MV_start + perfRow.realized_pnl)
      perfRow.MV_start) :=
  ⟨List.mem_cons_self _ _,
    C6_return_formula perfP perfRow (List.mem_cons_self _ _)⟩

/-- C8: a monthly aggregate row with `MV_start = 0` does not make the
return computation raise: the row is kept (the output has one row per
input row) and its `rate_of_return` is non-finite (`+inf`, `-inf` or
`NaN`). -/
theorem C8_zero_mv_start_nonfinite (df : List MvRow) :
    ∀ r ∈ df, r.MV_start = 0 →
      (compute_returns df).length = df.length ∧
      ∃ rr ∈ compute_returns df,
        rr.fund_name = r.fund_name ∧ rr.month = r.month ∧
        rr.MV_end = r.MV_end ∧ rr.realized_pnl = r.realized_pnl ∧
        rr.MV_start = 0 ∧ rr.rate_of_return.isFiniteVal = false := by
  intro r hr h0
  constructor
  · exact List.length_map _ _
  · refine ⟨_, List.mem_map.mpr ⟨r, hr, rfl⟩, rfl, rfl, rfl, rfl, h0, ?_⟩
    show (roundRet (rdiv (r.MV_end - r.MV_start + r.realized_pnl)
      r.MV_start)).isFiniteVal = false
    rw [h0]
    unfold rdiv
    have hc : (0 : ℚ) = 0 := rfl
    rw [if_pos hc]
    split_ifs <;> rfl

def mvZero : MvRow :=
  { fund_name := "FundA", month := 1, MV_end := 100, realized_pnl := 10
    MV_start := 0 }

theorem C8_witness :
    mvZero ∈ [mvZero] ∧ mvZero.MV_start = 0 ∧
    ((compute_returns [mvZero]).length = [mvZero].length ∧
     ∃ rr ∈ compute_returns [mvZero],
       rr.fund_name = mvZero.fund_name ∧ rr.month = mvZero.month ∧
       rr.MV_end = mvZero.MV_end ∧ rr.realized_pnl = mvZero.realized_pnl ∧
       rr.MV_start = 0 ∧ rr.rate_of_return.isFiniteVal = false) :=
  ⟨List.mem_cons_self _ _, rfl,
    C8_zero_mv_start_nonfinite [mvZero] mvZero (List.mem_cons_self _ _) rfl⟩

/-- C4: for every month present in the return table, the top-performer
report holds exactly one row of that month, taken from the return table,
whose `rate_of_return` is at least every other return of that month (in
the sort order used by the code, with `NaN` below all values); and the
report is sorted ascending by month. -/
theorem C4_top_performer (returns_df : List RetRow) :
    (∀ m : Int, (∃ r ∈ returns_df, r.month = m) →
      ∃ t, (get_top_performing_funds returns_df).filter
          (fun r => r.month = m) = [t] ∧
        t ∈ returns_df ∧
        ∀ r ∈ returns_df, r.month = m →
          retGeB t.rate_of_return r.rate_of_return = true) ∧
    (get_top_performing_funds returns_df).Pairwise
      (fun a b => a.month ≤ b.month) := by
  constructor
  · intro m hm
    obtain ⟨r0, hr0, hr0m⟩ := hm
    have hr0S : r0 ∈ sortBy returnsDescLE returns_df := mem_sortBy.mpr hr0
    obtain ⟨t, htD, htm⟩ := dedupOn_cover (fun r : RetRow => r.month) hr0S
    rw [hr0m] at htm
    subst htm
    have htF : t ∈ get_top_performing_funds returns_df := by
      unfold get_top_performing_funds
      exact mem_sortBy.mpr htD
    have hkeysD : (dedupOn (fun r : RetRow => r.month)
        (sortBy returnsDescLE returns_df)).Pairwise
        (fun a b => a.month ≠ b.month) :=
      dedupOn_keys_pairwise _ _
    have hkeysF : (get_top_performing_funds returns_df).Pairwise
        (fun a b => a.month ≠ b.month) := by
      unfold get_top_performing_funds
      exact ((sortBy_perm monthRowLE _).pairwise_iff
        (fun hab hc => hab hc.symm)).mpr hkeysD
    refine ⟨t, ?_, ?_, ?_⟩
    · exact filter_eq_single_of_keys_pairwise (fun r : RetRow => r.month)
        hkeysF htF
    · exact mem_sortBy.mp (dedupOn_subset _ htD)
    · intro r hr hrm
      have hS_pw : (sortBy returnsDescLE returns_df).Pairwise
          (fun a b => returnsDescLE a b = true) :=
        pairwise_sortBy returnsDescLE returnsDescLE_total returnsDescLE_trans _
      have := dedupOn_first (fun r : RetRow => r.month)
        (fun a => retGeB_refl a.rate_of_return) hS_pw htD r
        (mem_sortBy.mpr hr) (by exact hrm)
      exact this
  · have h1 := pairwise_sortBy monthRowLE monthRowLE_total monthRowLE_trans
      (dedupOn (fun r : RetRow => r.month) (sortBy returnsDescLE returns_df))
    unfold get_top_performing_funds
    exact h1.imp (fun hab => of_decide_eq_true hab)

def retRowA : RetRow :=
  { fund_name := "FundA", month := 1, MV_end := 110, realized_pnl := 15
    MV_start := 100, rate_of_return := RetVal.fin (1/4) }

def retRowB : RetRow :=
  { fund_name := "FundB", month := 1, MV_end := 220, realized_pnl := 0
    MV_start := 200, rate_of_return := RetVal.fin (1/10) }

theorem C4_witness :
    (∃ r ∈ [retRowA, retRowB], r.month = 1) ∧
    ((∃ t, (get_top_performing_funds [retRowA, retRowB]).filter
        (fun r => r.month = 1) = [t] ∧
      t ∈ [retRowA, retRowB] ∧
      ∀ r ∈ [retRowA, retRowB], r.month = 1 →
        retGeB t.rate_of_return r.rate_of_return = true)) :=
  ⟨⟨retRowA, List.mem_cons_self _ _, rfl⟩,
    (C4_top_performer [retRowA, retRowB]).1 1
      ⟨retRowA, List.mem_cons_self _ _, rfl⟩⟩
